import Mathlib

/-!
Verification development for the numerical core of the EBM trainer
(`interpret`): the BinSums interaction kernel (`BinInteraction.cpp`),
the RMSE gradient initializers (`InitializeGradientsAndHessians.cpp`),
the tree-sweep sizing helpers (`TreeSweep.hpp`) and the test harness
comparison `IsApproxEqual` (`libebm_test.cpp`).

Machine floats (`FloatFast`, `FloatBig`, `double`) are modelled by exact
rationals `ℚ`; `size_t` values by `Nat` with explicit `% 2 ^ 64` where
overflow matters; pointers walking parallel arrays become list cursors.
-/

namespace Interpret

/-! ## Data model for the BinSums interaction kernel

From `HistogramTargetEntry.hpp` / `HistogramBucket.hpp` (per the spec's
bin-record layout): a bin holds a sample count, a weight sum, and one
gradient pair per score, the pair holding `m_sumGradients` and (for
classification) `m_sumHessians`. -/

structure GradientPair where
  m_sumGradients : ℚ
  m_sumHessians : ℚ

structure Bin where
  countSamples : Nat
  weight : ℚ
  gradientPairs : List GradientPair

instance : Inhabited GradientPair := ⟨⟨0, 0⟩⟩

instance : Inhabited Bin := ⟨⟨0, 0, []⟩⟩

/-- A pre-binned feature: `GetCountBins` and the per-sample bin-index
column (`GetInputDataPointer`). -/
structure Feature where
  cBins : Nat
  inputData : List Nat

instance : Inhabited Feature := ⟨⟨0, []⟩⟩

/-- The memory the kernel touches: the fast bin tensor, the interleaved
gradient/Hessian buffer, the feature columns and the optional weight
array. A term is a list of indices into `features`. -/
structure InteractionMemory where
  aBins : List Bin
  gradsHess : List ℚ
  features : List Feature
  weights : Option (List ℚ)

/-! ## The kernel inner loops (`BinSumsInteractionInternal::Func`) -/

/-- The per-sample tensor-index loop of `BinSumsInteractionInternal`
(`BinInteraction.cpp` lines 86-105): starting from
`cTensorBins = 1, iTensorBin = 0`, for each dimension
`iTensorBin += cTensorBins * iBin; cTensorBins *= cBins`. -/
def tensorIndexLoop (features : List Feature) (term : List Nat)
    (cDimensions : Nat) (iSample : Nat) : Nat :=
  ((List.range cDimensions).foldl
    (fun (acc : Nat × Nat) iDimension =>
      let pInputFeature := features.getD (term.getD iDimension 0) default
      let iBin := pInputFeature.inputData.getD iSample 0
      (acc.1 + acc.2 * iBin, acc.2 * pInputFeature.cBins))
    (0, 1)).1

/-- The per-score loop of `BinSumsInteractionInternal` (lines 123-158):
`m_sumGradients += gradient * weight` and, for classification,
`SetSumHessians (GetSumHessians + hessian * weight)`, the cursor
advancing by 2 floats per score for classification and 1 otherwise. -/
def updateGradientPairsLoop (bClassification : Bool) (weight : ℚ) :
    Nat → List ℚ → List GradientPair → List GradientPair
  | 0, _, pairs => pairs
  | _ + 1, _, [] => []
  | cScores + 1, buf, p :: pairs =>
    let gradient := buf.getD 0 0
    let p1 := { p with m_sumGradients := p.m_sumGradients + gradient * weight }
    let p2 := if bClassification then
        { p1 with m_sumHessians := p1.m_sumHessians + buf.getD 1 0 * weight }
      else p1
    p2 :: updateGradientPairsLoop bClassification weight cScores
      (buf.drop (if bClassification then 2 else 1)) pairs

/-- One iteration of the sample loop of `BinSumsInteractionInternal`
(lines 71-159): compute the tensor bin, bump its count, add the sample
weight (1 when no weight array), and accumulate gradient (and Hessian)
sums from the interleaved buffer. Only `aBins` is written. -/
def binSumsSampleStep (bClassification : Bool) (cScores cDimensions : Nat)
    (term : List Nat) (mem : InteractionMemory) (iSample : Nat) :
    InteractionMemory :=
  let iTensorBin := tensorIndexLoop mem.features term cDimensions iSample
  let weight : ℚ := match mem.weights with
    | none => 1
    | some ws => ws.getD iSample 0
  let buf := mem.gradsHess.drop ((if bClassification then 2 else 1) * cScores * iSample)
  let pBin := mem.aBins.getD iTensorBin default
  let newBin : Bin :=
    { countSamples := pBin.countSamples + 1
      weight := pBin.weight + weight
      gradientPairs :=
        updateGradientPairsLoop bClassification weight cScores buf pBin.gradientPairs }
  { mem with aBins := mem.aBins.set iTensorBin newBin }

/-- The full sample loop of `BinSumsInteractionInternal::Func`: the
gradient cursor starts at the buffer base and stops at
`(bClassification ? 2 : 1) * cScores * cSamples`, so the loop body runs
once per sample in index order. -/
def binSumsLoop (bClassification : Bool) (cScores cDimensions : Nat)
    (term : List Nat) (cSamples : Nat) (mem : InteractionMemory) :
    InteractionMemory :=
  (List.range cSamples).foldl (binSumsSampleStep bClassification cScores cDimensions term) mem

/-! ## Spec-side description of the aggregation

These definitions follow the specification's words, to be compared with
the kernel translated above: index
`i = b0 + cBins0 * (b1 + cBins1 * (b2 + ...))` (dimension 0 fastest);
update `count += 1`, `weight += w`, `g[k] += g[s,k] * w` and, for
classification, `h[k] += h[s,k] * w`. -/

def specTensorIndex : List (Nat × Nat) → Nat
  | [] => 0
  | (b, c) :: rest => b + c * specTensorIndex rest

/-- The `(bin, cBins)` pairs of a sample, in dimension order. -/
def sampleBins (features : List Feature) (term : List Nat)
    (cDimensions iSample : Nat) : List (Nat × Nat) :=
  (List.range cDimensions).map fun d =>
    let f := features.getD (term.getD d 0) default
    (f.inputData.getD iSample 0, f.cBins)

/-- The spec's bin update for one sample of weight `w` whose gradient
(resp. Hessian) for score `k` is `g k` (resp. `h k`). -/
def specUpdateBin (bClassification : Bool) (w : ℚ) (g h : Nat → ℚ)
    (b : Bin) : Bin :=
  { countSamples := b.countSamples + 1
    weight := b.weight + w
    gradientPairs := b.gradientPairs.mapIdx fun k p =>
      { m_sumGradients := p.m_sumGradients + g k * w
        m_sumHessians :=
          if bClassification then p.m_sumHessians + h k * w else p.m_sumHessians } }

/-- The spec's whole per-sample step: exactly the bin at the flat tensor
index of sample `s` is replaced by its update. -/
def specSampleStep (bClassification : Bool) (cScores cDimensions : Nat)
    (term : List Nat) (features : List Feature) (gradsHess : List ℚ)
    (weights : Option (List ℚ)) (bins : List Bin) (s : Nat) : List Bin :=
  let i := specTensorIndex (sampleBins features term cDimensions s)
  let w : ℚ := match weights with
    | none => 1
    | some ws => ws.getD s 0
  let step := if bClassification then 2 else 1
  let g : Nat → ℚ := fun k => gradsHess.getD (step * cScores * s + step * k) 0
  let h : Nat → ℚ := fun k => gradsHess.getD (step * cScores * s + step * k + 1) 0
  bins.set i (specUpdateBin bClassification w g h (bins.getD i default))

/-! ## Aggregate views of a bin tensor -/

/-- Modelled from the spec: the compile-time class-count parameter `C` is
encoded as `regression`, `k_dynamicClassification`, or a specific
integer count. -/
inductive CompilerClasses where
  | k_regression
  | k_dynamicClassification
  | specific (k : Nat)

/-- Modelled from the spec: the runtime objective is regression or `K`-way
classification. -/
inductive RuntimeClasses where
  | regression
  | classification (k : Nat)

/-- Modelled from the spec: the compile-time dimension parameter `D` is a
specific count or `k_dynamicDimensions`. -/
inductive CompilerDimensions where
  | k_dynamicDimensions
  | specific (d : Nat)

/-- Modelled from the spec: `IsClassification` holds of every compile-time
class encoding except `k_regression`. -/
def IsClassificationC : CompilerClasses → Bool
  | .k_regression => false
  | _ => true

/-- Modelled from the spec: `GET_COUNT_CLASSES(compiler, runtime)` is the
compile-time count when fixed and the runtime count when dynamic. -/
def GET_COUNT_CLASSES : CompilerClasses → RuntimeClasses → RuntimeClasses
  | .k_regression, _ => .regression
  | .k_dynamicClassification, rt => rt
  | .specific k, _ => .classification k

/-- Modelled from the spec: `cScores = 1` for regression and binary
classification (single-logit convention), `K` for `K`-way multiclass. -/
def GetCountScores : RuntimeClasses → Nat
  | .regression => 1
  | .classification k => if k ≤ 2 then 1 else k

/-- Modelled from the spec: `GET_DIMENSIONS(compiler, runtime)`. -/
def GET_DIMENSIONS : CompilerDimensions → Nat → Nat
  | .k_dynamicDimensions, rt => rt
  | .specific d, _ => d

/-- `BinSumsInteractionInternal<cCompilerClasses, cCompilerDimensions>::Func`
(`BinInteraction.cpp` lines 38-167): resolve `bClassification`,
`cScores` and `cDimensions` from the compile-time parameters and the
runtime state, then run the sample loop. -/
def BinSumsInteractionInternal (cCompilerClasses : CompilerClasses)
    (cCompilerDimensions : CompilerDimensions)
    (cRuntimeClasses : RuntimeClasses) (term : List Nat) (cSamples : Nat)
    (mem : InteractionMemory) : InteractionMemory :=
  let bClassification := IsClassificationC cCompilerClasses
  let cClasses := GET_COUNT_CLASSES cCompilerClasses cRuntimeClasses
  let cScores := GetCountScores cClasses
  let cDimensions := GET_DIMENSIONS cCompilerDimensions term.length
  binSumsLoop bClassification cScores cDimensions term cSamples mem

/-- `BinSumsInteractionDimensions<cCompilerClasses, possible>` (lines
170-203): the recursive dimension ladder; the build constant
`k_cCompilerOptimizedCountDimensionsMax` is not among the sources and is
taken as the parameter `dMax`. The result is the `(C, D)` instantiation
of `BinSumsInteractionInternal` that gets invoked — exactly one. -/
def BinSumsInteractionDimensions (dMax : Nat) (cCompilerClasses : CompilerClasses)
    (possible rtD : Nat) : CompilerClasses × CompilerDimensions :=
  if dMax + 1 ≤ possible then (cCompilerClasses, .k_dynamicDimensions)
  else if possible = rtD then (cCompilerClasses, .specific possible)
  else BinSumsInteractionDimensions dMax cCompilerClasses (possible + 1) rtD
termination_by dMax + 1 - possible
decreasing_by omega

/-- `BinSumsInteractionTarget<cPossibleClasses>` (lines 205-242): the
recursive classification target ladder, entering the dimension ladder at
2 on a match and falling to `k_dynamicClassification` past
`k_cCompilerClassesMax` (taken as the parameter `kMax`). -/
def BinSumsInteractionTarget (kMax dMax : Nat) (possible rtK rtD : Nat) :
    CompilerClasses × CompilerDimensions :=
  if kMax + 1 ≤ possible then
    BinSumsInteractionDimensions dMax .k_dynamicClassification 2 rtD
  else if possible = rtK then
    BinSumsInteractionDimensions dMax (.specific possible) 2 rtD
  else BinSumsInteractionTarget kMax dMax (possible + 1) rtK rtD
termination_by kMax + 1 - possible
decreasing_by omega

/-- `BinSumsInteraction` (lines 244-254): classification objectives enter
the target ladder at 2; regression enters the dimension ladder directly
with `C = k_regression`. -/
def BinSumsInteraction (kMax dMax : Nat) (cRuntimeClasses : RuntimeClasses)
    (rtD : Nat) : CompilerClasses × CompilerDimensions :=
  match cRuntimeClasses with
  | .classification k => BinSumsInteractionTarget kMax dMax 2 k rtD
  | .regression => BinSumsInteractionDimensions dMax .k_regression 2 rtD

/-- The dispatched call: run the kernel at the instantiation the ladders
chose. -/
def BinSumsInteractionRun (kMax dMax : Nat) (cRuntimeClasses : RuntimeClasses)
    (term : List Nat) (cSamples : Nat) (mem : InteractionMemory) :
    InteractionMemory :=
  let cd := BinSumsInteraction kMax dMax cRuntimeClasses term.length
  BinSumsInteractionInternal cd.1 cd.2 cRuntimeClasses term cSamples mem

/-! ## RMSE gradient initializers
(`InitializeGradientsAndHessians.cpp`) -/

/-- Modelled from the spec: `EbmStats::ComputeGradientRegressionRmseInit`
(`ebm_stats.hpp` is not among the sources): gradient = initScore −
target. -/
def ComputeGradientRegressionRmseInit (initScore target : ℚ) : ℚ :=
  initScore - target

/-- Read of the init-score cursor: 0 when `aInitScores` is null
(`if(nullptr != pInitScore)`), else the entry at the cursor. -/
def initScoreAt (initScores : Option (List ℚ)) (i : Nat) : ℚ :=
  match initScores with
  | none => 0
  | some l => l.getD i 0

/-- The bag scan of `InitializeRmseGradientsAndHessiansBoosting` (lines
66-79): skip zero entries (advancing the target cursor), skip entries
whose validation flag (`replication < 0`) differs from the pass, and
return the accepted replication together with the number of target
positions and of init-score positions consumed (the accepted entry
included) and the remaining bag. -/
def findNextB (isLoopValidation : Bool) : List Int →
    Option (Int × Nat × Nat × List Int)
  | [] => none
  | replication :: rest =>
    if replication = 0 then
      (findNextB isLoopValidation rest).map fun x =>
        (x.1, x.2.1 + 1, x.2.2.1, x.2.2.2)
    else if decide (replication < 0) = isLoopValidation then
      some (replication, 1, 1, rest)
    else
      (findNextB isLoopValidation rest).map fun x =>
        (x.1, x.2.1 + 1, x.2.2.1 + 1, x.2.2.2)

/-- The write loop of `InitializeRmseGradientsAndHessiansBoosting` (lines
63-117), one gradient-buffer slot per step: `pending` is the number of
copies of `gradient` still owed for the current sample (the
`replication -= direction` countdown), `cap` the number of buffer slots
left before the last subset ends (where the function returns). When the
countdown hits zero the bag is scanned for the next in-scope sample, its
gradient `initScore - target` is computed and written, and the countdown
restarts at `|replication| - 1`. -/
def initWriteB (isLoopValidation : Bool) :
    Nat → Option (List Int) → List ℚ → Option (List ℚ) → Nat → ℚ → List ℚ
  | 0, _, _, _, _, _ => []
  | cap + 1, bag, targets, initScores, pending + 1, gradient =>
    gradient :: initWriteB isLoopValidation cap bag targets initScores pending gradient
  | cap + 1, none, targets, initScores, 0, _ =>
    let gradient := ComputeGradientRegressionRmseInit
      (match initScores with | none => 0 | some l => l.headD 0)
      (targets.headD 0)
    gradient :: initWriteB isLoopValidation cap none (targets.drop 1)
      (initScores.map (List.drop 1)) 0 gradient
  | cap + 1, some bagList, targets, initScores, 0, _ =>
    match findNextB isLoopValidation bagList with
    | none => []
    | some (replication, cTargetAdvances, cInitAdvances, bagRest) =>
      let gradient := ComputeGradientRegressionRmseInit
        (match initScores with
          | none => 0
          | some l => l.getD (cInitAdvances - 1) 0)
        (targets.getD (cTargetAdvances - 1) 0)
      gradient :: initWriteB isLoopValidation cap (some bagRest)
        (targets.drop cTargetAdvances) (initScores.map (List.drop cInitAdvances))
        (replication.natAbs - 1) gradient

/-- The subset write cursor (`pGradientAndHessian` up to
`pGradientAndHessianEnd`, then `++pSubset`): the emitted stream fills
each subset's gradient buffer in turn, crossing boundaries as needed. -/
def fillSubsets : List Nat → List ℚ → List (List ℚ)
  | [], _ => []
  | n :: ns, xs => xs.take n :: fillSubsets ns (xs.drop n)

/-- `InitializeRmseGradientsAndHessiansBoosting`: `isLoopValidation` is
`direction < 0`; the total capacity is the sum of the subset sizes and
the function returns when the last subset is filled. -/
def InitializeRmseGradientsAndHessiansBoosting (direction : Int)
    (aBag : Option (List Int)) (targets : List ℚ)
    (aInitScores : Option (List ℚ)) (subsetSizes : List Nat) :
    List (List ℚ) :=
  fillSubsets subsetSizes
    (initWriteB (decide (direction < 0)) subsetSizes.sum aBag targets
      aInitScores 0 0)

/-- Spec-side description of the boosting initializer's output stream:
zero bag entries are skipped (targets advance); entries whose sign does
not match the pass are skipped (targets and init scores advance); an
accepted entry emits `|replication|` copies of `initScore - target`. -/
def cleanStream (isLoopValidation : Bool) :
    List Int → List ℚ → Option (List ℚ) → List ℚ
  | [], _, _ => []
  | r :: bagRest, targets, initScores =>
    if r = 0 then
      cleanStream isLoopValidation bagRest (targets.drop 1) initScores
    else if decide (r < 0) = isLoopValidation then
      List.replicate r.natAbs
        (ComputeGradientRegressionRmseInit (initScoreAt initScores 0)
          (targets.getD 0 0))
        ++ cleanStream isLoopValidation bagRest (targets.drop 1)
            (initScores.map (List.drop 1))
    else
      cleanStream isLoopValidation bagRest (targets.drop 1)
        (initScores.map (List.drop 1))

/-- `size_t` arithmetic is modulo `2 ^ 64`. -/
def sizeModulus : Nat := 2 ^ 64

/-- Modelled from the spec: the per-bin byte size from
`(classification?, cScores)` (`GetBinSize` lives in a header not among
the sources): a `size_t` count and a `FloatBig` weight (8 bytes each),
then per score a gradient sum plus, for classification, a Hessian sum
(8 bytes each), in `size_t` arithmetic. -/
def GetBinSize (bClassification : Bool) (cScores : Nat) : Nat :=
  (8 + 8 + cScores * (if bClassification then 16 else 8)) % sizeModulus

/-- Modelled from the spec: `IsAddError(a, b)` detects `size_t` overflow
of `a + b`. -/
def IsAddError (a b : Nat) : Bool := decide (sizeModulus ≤ a + b)

/-- Modelled from the spec:
`sizeof(TreeSweep<b>) - sizeof(TreeSweep<b>::m_bestBinLeft)`: what is
left of the record once the trailing inline bin is removed is the
`m_pBestBin` pointer, 8 bytes. -/
def cBytesTreeSweepComponent (_bClassification : Bool) : Nat := 8

/-- `IsOverflowTreeSweepSize` (`TreeSweep.hpp` lines 72-88). -/
def IsOverflowTreeSweepSize (bClassification : Bool) (cScores : Nat) : Bool :=
  let cBytesPerBin := GetBinSize bClassification cScores
  IsAddError (cBytesTreeSweepComponent bClassification) cBytesPerBin

/-- `GetTreeSweepSize` (`TreeSweep.hpp` lines 90-101). -/
def GetTreeSweepSize (bClassification : Bool) (cScores : Nat) : Nat :=
  let cBytesPerBin := GetBinSize bClassification cScores
  (cBytesTreeSweepComponent bClassification + cBytesPerBin) % sizeModulus

/-! ## The test harness comparison (`libebm_test.cpp` lines 81-131) -/

/-- A C `double` as `IsApproxEqual` distinguishes them: NaN, an infinity,
or a finite value (modelled exactly by a rational). -/
inductive EDouble where
  | nan
  | inf (positive : Bool)
  | val (q : ℚ)

/-- `IsApproxEqual(val, expected, percentage)`: NaN or infinite arguments
are never approximately equal; positive values are compared against
`expected_or_val_bigger * (1 ± percentage)` with the larger magnitude as
the pivot; negative values symmetrically; zero only equals zero. -/
def IsApproxEqual (val expected : EDouble) (percentage : ℚ) : Bool :=
  match val, expected with
  | .val v, .val e =>
    let smaller := 1 - percentage
    let bigger := 1 + percentage
    if 0 < v then
      if 0 < e then
        if v ≤ e then decide (e * smaller ≤ v ∧ v ≤ e * bigger)
        else decide (v * smaller ≤ e ∧ e ≤ v * bigger)
      else false
    else if v < 0 then
      if e < 0 then
        if e ≤ v then decide (e * bigger ≤ v ∧ v ≤ e * smaller)
        else decide (v * bigger ≤ e ∧ e ≤ v * smaller)
      else false
    else decide (0 = e)
  | _, _ => false

/-! ## Kernel loop = spec description -/

theorem getD_drop_q (l : List ℚ) (n m : Nat) (d : ℚ) :
    (l.drop n).getD m d = l.getD (n + m) d := by
  simp [List.getD_eq_get?, List.get?_drop]

theorem tensorIndexLoop_foldl (features : List Feature) (term : List Nat)
    (iSample : Nat) (ds : List Nat) :
    ∀ i m : Nat,
    (ds.foldl (fun (acc : Nat × Nat) iDimension =>
        let pInputFeature := features.getD (term.getD iDimension 0) default
        let iBin := pInputFeature.inputData.getD iSample 0
        (acc.1 + acc.2 * iBin, acc.2 * pInputFeature.cBins)) (i, m)).1
      = i + m * specTensorIndex (ds.map fun d =>
          let f := features.getD (term.getD d 0) default
          (f.inputData.getD iSample 0, f.cBins)) := by
  induction ds with
  | nil => intro i m; simp [specTensorIndex]
  | cons d rest ih =>
    intro i m
    simp only [List.foldl_cons, List.map_cons, specTensorIndex]
    rw [ih]
    ring

theorem tensorIndexLoop_eq_spec (features : List Feature) (term : List Nat)
    (cDimensions iSample : Nat) :
    tensorIndexLoop features term cDimensions iSample
      = specTensorIndex (sampleBins features term cDimensions iSample) := by
  unfold tensorIndexLoop sampleBins
  rw [tensorIndexLoop_foldl]
  simp

/-- The score loop read through the running cursor agrees with the
spec's indexed reads `g[s,k]`, `h[s,k]`, when the bin carries one
gradient pair per score. -/
theorem updateGradientPairsLoop_eq_mapIdx (bClassification : Bool) (w : ℚ)
    (pairs : List GradientPair) :
    ∀ (buf : List ℚ),
    updateGradientPairsLoop bClassification w pairs.length buf pairs
      = pairs.mapIdx fun k p =>
          { m_sumGradients := p.m_sumGradients
              + buf.getD ((if bClassification then 2 else 1) * k) 0 * w
            m_sumHessians :=
              if bClassification then
                p.m_sumHessians
                  + buf.getD ((if bClassification then 2 else 1) * k + 1) 0 * w
              else p.m_sumHessians } := by
  induction pairs with
  | nil => intro buf; simp [updateGradientPairsLoop]
  | cons p ps ih =>
    intro buf
    rw [List.length_cons, List.mapIdx_cons]
    show updateGradientPairsLoop bClassification w (ps.length + 1) buf (p :: ps) = _
    rw [updateGradientPairsLoop, ih]
    congr 1
    · cases bClassification <;> simp
    · have hfun :
        (fun k (q : GradientPair) =>
          ({ m_sumGradients := q.m_sumGradients
              + (buf.drop (if bClassification then 2 else 1)).getD
                  ((if bClassification then 2 else 1) * k) 0 * w
             m_sumHessians :=
               if bClassification then
                 q.m_sumHessians
                   + (buf.drop (if bClassification then 2 else 1)).getD
                       ((if bClassification then 2 else 1) * k + 1) 0 * w
               else q.m_sumHessians } : GradientPair))
        = fun k (q : GradientPair) =>
          { m_sumGradients := q.m_sumGradients
              + buf.getD ((if bClassification then 2 else 1) * (k + 1)) 0 * w
            m_sumHessians :=
              if bClassification then
                q.m_sumHessians
                  + buf.getD ((if bClassification then 2 else 1) * (k + 1) + 1) 0 * w
              else q.m_sumHessians } := by
        funext k q
        have h1 : ∀ st j : Nat, st + st * j = st * (j + 1) := by
          intro st j; ring
        have h2 : ∀ st j : Nat, st + (st * j + 1) = st * (j + 1) + 1 := by
          intro st j; ring
        rw [getD_drop_q, getD_drop_q, h1, h2]
      exact congrFun (congrArg _ hfun) ps


theorem updateGradientPairsLoop_nil (b : Bool) (w : ℚ) (n : Nat)
    (buf : List ℚ) : updateGradientPairsLoop b w n buf [] = [] := by
  cases n <;> rfl

theorem getD_mem_of_lt (l : List Bin) (i : Nat) (h : i < l.length) :
    l.getD i default ∈ l := by
  rw [List.getD_eq_get?, List.get?_eq_get h]
  simp [List.get_mem]

/-- One source sample step performs exactly the spec's update on the bin
tensor (and only there), provided every bin holds one gradient pair per
score. -/
theorem binSumsSampleStep_eq_spec (bClassification : Bool)
    (cScores cDimensions : Nat) (term : List Nat) (B : List Bin)
    (gh : List ℚ) (fs : List Feature) (ws : Option (List ℚ)) (s : Nat)
    (hpairs : ∀ b ∈ B, b.gradientPairs.length = cScores) :
    binSumsSampleStep bClassification cScores cDimensions term ⟨B, gh, fs, ws⟩ s
      = ⟨specSampleStep bClassification cScores cDimensions term fs gh ws B s,
         gh, fs, ws⟩ := by
  unfold binSumsSampleStep specSampleStep specUpdateBin
  simp only [tensorIndexLoop_eq_spec]
  congr 2
  set i := specTensorIndex (sampleBins fs term cDimensions s) with hi
  by_cases hrange : i < B.length
  · have hlen : (B.getD i default).gradientPairs.length = cScores :=
      hpairs _ (getD_mem_of_lt B i hrange)
    rw [← hlen, updateGradientPairsLoop_eq_mapIdx]
    simp only [getD_drop_q, Nat.add_assoc]
  · have hdef : B.getD i default = default := by
      rw [List.getD_eq_get?, List.get?_eq_none.mpr (le_of_not_lt hrange)]
      rfl
    rw [hdef]
    congr 1
    show updateGradientPairsLoop bClassification _ cScores _ [] = List.mapIdx _ []
    rw [updateGradientPairsLoop_nil]
    rfl

/-- The spec's step keeps one gradient pair per score in every bin. -/
theorem specSampleStep_preserves_len (bClassification : Bool)
    (cScores cDimensions : Nat) (term : List Nat) (fs : List Feature)
    (gh : List ℚ) (ws : Option (List ℚ)) (B : List Bin) (s : Nat)
    (hpairs : ∀ b ∈ B, b.gradientPairs.length = cScores) :
    ∀ b ∈ specSampleStep bClassification cScores cDimensions term fs gh ws B s,
      b.gradientPairs.length = cScores := by
  intro b hb
  simp only [specSampleStep] at hb
  by_cases hrange :
      specTensorIndex (sampleBins fs term cDimensions s) < B.length
  · rcases List.mem_or_eq_of_mem_set hb with h1 | h1
    · exact hpairs b h1
    · subst h1
      simp only [specUpdateBin, List.length_mapIdx]
      exact hpairs _ (getD_mem_of_lt B _ hrange)
  · rw [List.set_eq_of_length_le (le_of_not_lt hrange)] at hb
    exact hpairs b hb

/-- The whole kernel pass equals the spec's fold of per-sample updates,
touching only the bin tensor. -/
theorem binSumsLoop_eq_spec (bClassification : Bool)
    (cScores cDimensions : Nat) (term : List Nat) (n : Nat) (B : List Bin)
    (gh : List ℚ) (fs : List Feature) (ws : Option (List ℚ))
    (hpairs : ∀ b ∈ B, b.gradientPairs.length = cScores) :
    binSumsLoop bClassification cScores cDimensions term n ⟨B, gh, fs, ws⟩
      = ⟨(List.range n).foldl
          (specSampleStep bClassification cScores cDimensions term fs gh ws) B,
         gh, fs, ws⟩ := by
  have hstep : ∀ (B : List Bin), (∀ b ∈ B, b.gradientPairs.length = cScores) →
      ∀ ds : List Nat,
      (∀ b ∈ ds.foldl
          (specSampleStep bClassification cScores cDimensions term fs gh ws) B,
        b.gradientPairs.length = cScores) := by
    intro B0 h0 ds
    induction ds generalizing B0 with
    | nil => exact h0
    | cons x xs ihx =>
      simp only [List.foldl_cons]
      exact ihx _ (specSampleStep_preserves_len _ _ _ _ _ _ _ _ _ h0)
  induction n with
  | zero => rfl
  | succ m ih =>
    unfold binSumsLoop at ih ⊢
    rw [List.range_succ, List.foldl_append, List.foldl_append, ih]
    simp only [List.foldl_cons, List.foldl_nil]
    exact binSumsSampleStep_eq_spec bClassification cScores cDimensions term _
      gh fs ws m (hstep B hpairs (List.range m))

/-- Claim C1: for every dataset and every term of `D ≥ 1` features each
having `cBins ≥ 2`, for each sample `s` the BinSums interaction kernel
computes the flat tensor index
`i = b0 + cBins0 * (b1 + cBins1 * (b2 + ...))` from the sample's
per-feature bin indices (dimension 0 fastest) and updates exactly bin
`i` by `count += 1`, `weight += w` (with `w = weights[s]` when a weight
array is present and exactly 1 otherwise), and for each score `k`
`sumGradients[k] += g[s,k] * w` and, for classification,
`sumHessians[k] += h[s,k] * w`. -/
theorem C1_binsums_per_sample_update (bClassification : Bool)
    (cScores : Nat) (term : List Nat) (cSamples : Nat) (B : List Bin)
    (gh : List ℚ) (fs : List Feature) (ws : Option (List ℚ))
    (hD : 1 ≤ term.length)
    (hBins : ∀ iF ∈ term, 2 ≤ (fs.getD iF default).cBins)
    (hpairs : ∀ b ∈ B, b.gradientPairs.length = cScores) :
    binSumsLoop bClassification cScores term.length term cSamples ⟨B, gh, fs, ws⟩
      = ⟨(List.range cSamples).foldl
          (specSampleStep bClassification cScores term.length term fs gh ws) B,
         gh, fs, ws⟩ :=
  binSumsLoop_eq_spec bClassification cScores term.length term cSamples B gh
    fs ws hpairs

/-- Witness for C1, at scenario S1 (one feature of 3 bins, one sample at
bin 1 with gradient -3, no weights). -/
theorem C1_binsums_per_sample_update_witness :
    (1 ≤ ([0] : List Nat).length
      ∧ (∀ iF ∈ ([0] : List Nat),
          2 ≤ (([⟨3, [1]⟩] : List Feature).getD iF default).cBins)
      ∧ (∀ b ∈ ([⟨0, 0, [⟨0, 0⟩]⟩, ⟨0, 0, [⟨0, 0⟩]⟩, ⟨0, 0, [⟨0, 0⟩]⟩] : List Bin),
          b.gradientPairs.length = 1))
    ∧ binSumsLoop false 1 ([0] : List Nat).length [0] 1
        ⟨[⟨0, 0, [⟨0, 0⟩]⟩, ⟨0, 0, [⟨0, 0⟩]⟩, ⟨0, 0, [⟨0, 0⟩]⟩], [-3], [⟨3, [1]⟩], none⟩
      = ⟨(List.range 1).foldl
          (specSampleStep false 1 ([0] : List Nat).length [0] [⟨3, [1]⟩] [-3] none)
          [⟨0, 0, [⟨0, 0⟩]⟩, ⟨0, 0, [⟨0, 0⟩]⟩, ⟨0, 0, [⟨0, 0⟩]⟩],
         [-3], [⟨3, [1]⟩], none⟩ :=
  ⟨⟨by decide, by decide, by decide⟩,
   C1_binsums_per_sample_update false 1 [0] 1
     [⟨0, 0, [⟨0, 0⟩]⟩, ⟨0, 0, [⟨0, 0⟩]⟩, ⟨0, 0, [⟨0, 0⟩]⟩] [-3] [⟨3, [1]⟩] none
     (by decide) (by decide) (by decide)⟩

/-! ## Totals over the bin tensor -/

/-- One kernel step writes only the bin tensor; the buffers, columns and
weight array are untouched and the tensor keeps its length. -/
theorem binSumsSampleStep_fields (bClassification : Bool)
    (cScores cDimensions : Nat) (term : List Nat) (mem : InteractionMemory)
    (s : Nat) :
    (binSumsSampleStep bClassification cScores cDimensions term mem s).gradsHess
        = mem.gradsHess
    ∧ (binSumsSampleStep bClassification cScores cDimensions term mem s).features
        = mem.features
    ∧ (binSumsSampleStep bClassification cScores cDimensions term mem s).weights
        = mem.weights
    ∧ (binSumsSampleStep bClassification cScores cDimensions term mem s).aBins.length
        = mem.aBins.length := by
  unfold binSumsSampleStep
  exact ⟨rfl, rfl, rfl, List.length_set _ _ _⟩

/-- The kernel pass writes only the bin tensor; the buffers, columns and
weight array are untouched and the tensor keeps its length. -/
theorem binSumsLoop_fields (bClassification : Bool) (cScores cDimensions : Nat)
    (term : List Nat) (cSamples : Nat) (mem : InteractionMemory) :
    (binSumsLoop bClassification cScores cDimensions term cSamples mem).gradsHess
        = mem.gradsHess
    ∧ (binSumsLoop bClassification cScores cDimensions term cSamples mem).features
        = mem.features
    ∧ (binSumsLoop bClassification cScores cDimensions term cSamples mem).weights
        = mem.weights
    ∧ (binSumsLoop bClassification cScores cDimensions term cSamples mem).aBins.length
        = mem.aBins.length := by
  induction cSamples with
  | zero => exact ⟨rfl, rfl, rfl, rfl⟩
  | succ m ih =>
    unfold binSumsLoop at ih ⊢
    rw [List.range_succ, List.foldl_append]
    simp only [List.foldl_cons, List.foldl_nil]
    obtain ⟨h1, h2, h3, h4⟩ := ih
    obtain ⟨g1, g2, g3, g4⟩ := binSumsSampleStep_fields bClassification cScores
      cDimensions term ((List.range m).foldl
        (binSumsSampleStep bClassification cScores cDimensions term) mem) m
    exact ⟨g1.trans h1, g2.trans h2, g3.trans h3, g4.trans h4⟩

/-- The score loop with unit weight adds to each pair's Hessian sum some
value taken from the Hessian slots of the buffer; if those slots all lie
in `[0, 1/4]`, every output Hessian sum lies within `1/4` above its
input. -/
theorem updateGradientPairsLoop_hess_bound :
    ∀ (pairs : List GradientPair) (cScores : Nat) (buf : List ℚ),
    (∀ k, k < cScores →
      0 ≤ buf.getD (2 * k + 1) 0 ∧ buf.getD (2 * k + 1) 0 ≤ 1 / 4) →
    ∀ q ∈ updateGradientPairsLoop true 1 cScores buf pairs,
      ∃ p ∈ pairs, p.m_sumHessians ≤ q.m_sumHessians
        ∧ q.m_sumHessians ≤ p.m_sumHessians + 1 / 4 := by
  intro pairs
  induction pairs with
  | nil =>
    intro cScores buf hbuf q hq
    rw [updateGradientPairsLoop_nil] at hq
    simp at hq
  | cons p ps ih =>
    intro cScores buf hbuf q hq
    cases cScores with
    | zero =>
      refine ⟨q, ?_, le_refl _, by linarith⟩
      exact hq
    | succ m =>
      rw [updateGradientPairsLoop] at hq
      simp only [if_true, List.mem_cons] at hq
      rcases hq with hq | hq
      · subst hq
        refine ⟨p, List.mem_cons_self p ps, ?_, ?_⟩
        · have := (hbuf 0 (by omega)).1
          simp only [Nat.mul_zero, Nat.zero_add] at this
          simp only [mul_one]
          linarith
        · have := (hbuf 0 (by omega)).2
          simp only [Nat.mul_zero, Nat.zero_add] at this
          simp only [mul_one]
          linarith
      · have hbuf2 : ∀ k, k < m →
            0 ≤ (buf.drop 2).getD (2 * k + 1) 0
            ∧ (buf.drop 2).getD (2 * k + 1) 0 ≤ 1 / 4 := by
          intro k hk
          rw [getD_drop_q]
          have h2 : 2 + (2 * k + 1) = 2 * (k + 1) + 1 := by ring
          rw [h2]
          exact hbuf (k + 1) (by omega)
        obtain ⟨p2, hp2, hb1, hb2⟩ := ih m (buf.drop 2) hbuf2 q hq
        exact ⟨p2, List.mem_cons_of_mem p hp2, hb1, hb2⟩

/-- One unweighted classification kernel step preserves the per-bin
invariant `0 ≤ sumHessians ≤ count / 4`. -/
theorem binSumsSampleStep_hess_inv (cScores cDimensions : Nat)
    (term : List Nat) (mem : InteractionMemory) (s : Nat)
    (hws : mem.weights = none)
    (hbuf : ∀ k, k < cScores →
      0 ≤ mem.gradsHess.getD (2 * cScores * s + (2 * k + 1)) 0
      ∧ mem.gradsHess.getD (2 * cScores * s + (2 * k + 1)) 0 ≤ 1 / 4)
    (hinv : ∀ b ∈ mem.aBins, ∀ p ∈ b.gradientPairs,
      0 ≤ p.m_sumHessians ∧ p.m_sumHessians ≤ (b.countSamples : ℚ) / 4) :
    ∀ b ∈ (binSumsSampleStep true cScores cDimensions term mem s).aBins,
      ∀ p ∈ b.gradientPairs,
      0 ≤ p.m_sumHessians ∧ p.m_sumHessians ≤ (b.countSamples : ℚ) / 4 := by
  intro b hb q hq
  unfold binSumsSampleStep at hb
  rw [hws] at hb
  simp only [] at hb
  rcases List.mem_or_eq_of_mem_set hb with h1 | h1
  · exact hinv b h1 q hq
  · subst h1
    set i := tensorIndexLoop mem.features term cDimensions s with hi
    have hbuf2 : ∀ k, k < cScores →
        0 ≤ (mem.gradsHess.drop ((if true then 2 else 1) * cScores * s)).getD (2 * k + 1) 0
        ∧ (mem.gradsHess.drop ((if true then 2 else 1) * cScores * s)).getD (2 * k + 1) 0 ≤ 1 / 4 := by
      intro k hk
      rw [getD_drop_q]
      exact hbuf k hk
    obtain ⟨p0, hp0, hq1, hq2⟩ := updateGradientPairsLoop_hess_bound
      (mem.aBins.getD i default).gradientPairs cScores _ hbuf2 q hq
    by_cases hrange : i < mem.aBins.length
    · have hold := hinv _ (getD_mem_of_lt mem.aBins i hrange) p0 hp0
      constructor
      · linarith [hold.1]
      · push_cast
        linarith [hold.2]
    · have hdef : mem.aBins.getD i default = default := by
        rw [List.getD_eq_get?, List.get?_eq_none.mpr (le_of_not_lt hrange)]
        rfl
      rw [hdef] at hp0
      exact absurd hp0 (List.not_mem_nil p0)

/-- Claim C5, amended: for every classification dataset *with no weight
array present*, assuming each per-sample gradient lies in `[-1, 1]` and
each per-sample Hessian lies in `[0, 0.25]`, after aggregation on a
zeroed tensor every bin satisfies `0 ≤ sumHessians ≤ 0.25 * count` per
score (exactly — no rounding slack is needed in exact arithmetic). -/
theorem C5_hessian_bound_unweighted (cScores cDimensions : Nat)
    (term : List Nat) (cSamples : Nat) (B : List Bin) (gh : List ℚ)
    (fs : List Feature)
    (hzero : ∀ b ∈ B, b.countSamples = 0
      ∧ ∀ p ∈ b.gradientPairs, p.m_sumHessians = 0)
    (hgrad : ∀ m, m < cScores * cSamples →
      -1 ≤ gh.getD (2 * m) 0 ∧ gh.getD (2 * m) 0 ≤ 1)
    (hhess : ∀ m, m < cScores * cSamples →
      0 ≤ gh.getD (2 * m + 1) 0 ∧ gh.getD (2 * m + 1) 0 ≤ 1 / 4) :
    ∀ b ∈ (binSumsLoop true cScores cDimensions term cSamples
        ⟨B, gh, fs, none⟩).aBins,
      ∀ p ∈ b.gradientPairs,
        0 ≤ p.m_sumHessians ∧ p.m_sumHessians ≤ (b.countSamples : ℚ) / 4 := by
  have key : ∀ n, n ≤ cSamples →
      ∀ b ∈ (binSumsLoop true cScores cDimensions term n
        ⟨B, gh, fs, none⟩).aBins,
      ∀ p ∈ b.gradientPairs,
        0 ≤ p.m_sumHessians ∧ p.m_sumHessians ≤ (b.countSamples : ℚ) / 4 := by
    intro n hn
    induction n with
    | zero =>
      intro b hb p hp
      obtain ⟨hc, hh⟩ := hzero b hb
      rw [hh p hp, hc]
      norm_num
    | succ m ih =>
      set memN := binSumsLoop true cScores cDimensions term m
        ⟨B, gh, fs, none⟩ with hmem
      obtain ⟨hgh, hfs, hws, hlen⟩ := binSumsLoop_fields true
        cScores cDimensions term m ⟨B, gh, fs, none⟩
      have hgh2 : memN.gradsHess = gh := hgh
      have hws2 : memN.weights = none := hws
      have hstep : binSumsLoop true cScores cDimensions term (m + 1)
          ⟨B, gh, fs, none⟩
          = binSumsSampleStep true cScores cDimensions term memN m := by
        unfold binSumsLoop
        rw [List.range_succ, List.foldl_append]
        rfl
      rw [hstep]
      apply binSumsSampleStep_hess_inv cScores cDimensions term memN m hws2
      · intro k hk
        rw [hgh2]
        have h2 : 2 * cScores * m + (2 * k + 1) = 2 * (cScores * m + k) + 1 := by
          ring
        rw [h2]
        apply hhess
        calc cScores * m + k < cScores * m + cScores := by omega
          _ = cScores * (m + 1) := by ring
          _ ≤ cScores * cSamples := Nat.mul_le_mul_left cScores (by omega)
      · exact ih (by omega)
  exact key cSamples le_rfl

/-- Counterexample to C5 as stated: with a weight array present (weight
2) and a single sample whose gradient `-1/2 ∈ [-1, 1]` and Hessian
`1/4 ∈ [0, 0.25]` satisfy the claim's assumptions, bin 0 ends with
`count = 1` and `sumHessians = 1/2`, exceeding `0.25 * count` by a full
`1/4` — far beyond any rounding slack. -/
theorem C5_hessian_bound_counterexample :
    (-1 ≤ (-1/2 : ℚ) ∧ (-1/2 : ℚ) ≤ 1 ∧ 0 ≤ (1/4 : ℚ) ∧ (1/4 : ℚ) ≤ 1/4)
    ∧ ((binSumsLoop true 1 1 [0] 1
        ⟨[⟨0, 0, [⟨0, 0⟩]⟩, ⟨0, 0, [⟨0, 0⟩]⟩], [-1/2, 1/4], [⟨2, [0]⟩],
         some [2]⟩).aBins.getD 0 default).countSamples = 1
    ∧ (((binSumsLoop true 1 1 [0] 1
        ⟨[⟨0, 0, [⟨0, 0⟩]⟩, ⟨0, 0, [⟨0, 0⟩]⟩], [-1/2, 1/4], [⟨2, [0]⟩],
         some [2]⟩).aBins.getD 0 default).gradientPairs.getD 0
           default).m_sumHessians = 1/2
    ∧ ¬((1/2 : ℚ) ≤ 1/4 * 1) := by
  refine ⟨⟨by norm_num, by norm_num, by norm_num, le_refl _⟩, ?_, ?_, by norm_num⟩ <;>
    norm_num [binSumsLoop, binSumsSampleStep, tensorIndexLoop,
      updateGradientPairsLoop, List.range_succ, List.range_zero,
      List.getD_cons_zero, List.getD_cons_succ, List.getElem?_cons_zero,
      List.getElem?_cons_succ]

/-- Witness for the amended C5, at scenario S4 (binary log-loss, one
sample at bin 0, gradient -1/2, Hessian 1/4, no weights). -/
theorem C5_hessian_bound_unweighted_witness :
    ((∀ b ∈ ([⟨0, 0, [⟨0, 0⟩]⟩, ⟨0, 0, [⟨0, 0⟩]⟩] : List Bin),
        b.countSamples = 0 ∧ ∀ p ∈ b.gradientPairs, p.m_sumHessians = 0)
      ∧ (∀ m, m < 1 * 1 →
          -1 ≤ ([-1/2, 1/4] : List ℚ).getD (2 * m) 0
          ∧ ([-1/2, 1/4] : List ℚ).getD (2 * m) 0 ≤ 1)
      ∧ (∀ m, m < 1 * 1 →
          0 ≤ ([-1/2, 1/4] : List ℚ).getD (2 * m + 1) 0
          ∧ ([-1/2, 1/4] : List ℚ).getD (2 * m + 1) 0 ≤ 1 / 4))
    ∧ (∀ b ∈ (binSumsLoop true 1 1 [0] 1
        ⟨[⟨0, 0, [⟨0, 0⟩]⟩, ⟨0, 0, [⟨0, 0⟩]⟩], [-1/2, 1/4], [⟨2, [0]⟩],
         none⟩).aBins,
      ∀ p ∈ b.gradientPairs,
        0 ≤ p.m_sumHessians ∧ p.m_sumHessians ≤ (b.countSamples : ℚ) / 4) :=
  ⟨⟨by
      intro b hb
      simp only [List.mem_cons, List.not_mem_nil, or_false] at hb
      rcases hb with rfl | rfl <;>
        exact ⟨rfl, by intro p hp; simp only [List.mem_singleton] at hp; subst hp; rfl⟩,
    by
      intro m hm
      have hm0 : m = 0 := by omega
      subst hm0
      norm_num [List.getD_cons_zero, List.getD_cons_succ],
    by
      intro m hm
      have hm0 : m = 0 := by omega
      subst hm0
      norm_num [List.getD_cons_zero, List.getD_cons_succ]⟩,
   C5_hessian_bound_unweighted 1 1 [0] 1
     [⟨0, 0, [⟨0, 0⟩]⟩, ⟨0, 0, [⟨0, 0⟩]⟩] [-1/2, 1/4] [⟨2, [0]⟩]
     (by
       intro b hb
       simp only [List.mem_cons, List.not_mem_nil, or_false] at hb
       rcases hb with rfl | rfl <;>
         exact ⟨rfl, by intro p hp; simp only [List.mem_singleton] at hp; subst hp; rfl⟩)
     (by
       intro m hm
       have hm0 : m = 0 := by omega
       subst hm0
       norm_num [List.getD_cons_zero, List.getD_cons_succ])
     (by
       intro m hm
       have hm0 : m = 0 := by omega
       subst hm0
       norm_num [List.getD_cons_zero, List.getD_cons_succ])⟩

/-! ## Frame properties of the kernel -/

/-- Bins whose index no processed sample produces keep their contents. -/
theorem binSumsLoop_frame (bClassification : Bool) (cScores cDimensions : Nat)
    (term : List Nat) (cSamples : Nat) (mem : InteractionMemory) (j : Nat)
    (hj : ∀ s, s < cSamples →
      tensorIndexLoop mem.features term cDimensions s ≠ j) :
    (binSumsLoop bClassification cScores cDimensions term cSamples mem).aBins.get? j
      = mem.aBins.get? j := by
  induction cSamples with
  | zero => rfl
  | succ m ih =>
    have ihm := ih (fun s hs => hj s (by omega))
    have hfs : (binSumsLoop bClassification cScores cDimensions term m mem).features
        = mem.features :=
      (binSumsLoop_fields bClassification cScores cDimensions term m mem).2.1
    have hstep : binSumsLoop bClassification cScores cDimensions term (m + 1) mem
        = binSumsSampleStep bClassification cScores cDimensions term
            (binSumsLoop bClassification cScores cDimensions term m mem) m := by
      unfold binSumsLoop
      rw [List.range_succ, List.foldl_append]
      rfl
    rw [hstep]
    unfold binSumsSampleStep
    simp only []
    rw [List.get?_set_ne]
    · exact ihm
    · rw [hfs]
      exact hj m (by omega)

/-- Claim C8: during a BinSums aggregation the kernel never writes the
gradient/Hessian buffer, the input bin-index columns, or the weight
array, and every bin record whose flat index is not produced by any
sample keeps its prior (zeroed) contents. -/
theorem C8_binsums_frame (bClassification : Bool) (cScores cDimensions : Nat)
    (term : List Nat) (cSamples : Nat) (mem : InteractionMemory) (j : Nat)
    (hj : ∀ s, s < cSamples →
      tensorIndexLoop mem.features term cDimensions s ≠ j) :
    (binSumsLoop bClassification cScores cDimensions term cSamples mem).gradsHess
        = mem.gradsHess
    ∧ (binSumsLoop bClassification cScores cDimensions term cSamples mem).features
        = mem.features
    ∧ (binSumsLoop bClassification cScores cDimensions term cSamples mem).weights
        = mem.weights
    ∧ (binSumsLoop bClassification cScores cDimensions term cSamples mem).aBins.get? j
        = mem.aBins.get? j := by
  obtain ⟨h1, h2, h3, _⟩ := binSumsLoop_fields bClassification cScores
    cDimensions term cSamples mem
  exact ⟨h1, h2, h3,
    binSumsLoop_frame bClassification cScores cDimensions term cSamples mem j hj⟩

/-- Witness for C8 at scenario S1: the single sample lands in bin 1, so
bins 0 and 2 keep their zeroed contents and the buffers are unchanged. -/
theorem C8_binsums_frame_witness :
    ((∀ s, s < 1 → tensorIndexLoop [⟨3, [1]⟩] [0] 1 s ≠ 0)
      ∧ (∀ s, s < 1 → tensorIndexLoop [⟨3, [1]⟩] [0] 1 s ≠ 2))
    ∧ (binSumsLoop false 1 1 [0] 1
        ⟨[⟨0, 0, [⟨0, 0⟩]⟩, ⟨0, 0, [⟨0, 0⟩]⟩, ⟨0, 0, [⟨0, 0⟩]⟩], [-3],
         [⟨3, [1]⟩], none⟩).aBins.get? 0
      = ([⟨0, 0, [⟨0, 0⟩]⟩, ⟨0, 0, [⟨0, 0⟩]⟩, ⟨0, 0, [⟨0, 0⟩]⟩] : List Bin).get? 0
    ∧ (binSumsLoop false 1 1 [0] 1
        ⟨[⟨0, 0, [⟨0, 0⟩]⟩, ⟨0, 0, [⟨0, 0⟩]⟩, ⟨0, 0, [⟨0, 0⟩]⟩], [-3],
         [⟨3, [1]⟩], none⟩).aBins.get? 2
      = ([⟨0, 0, [⟨0, 0⟩]⟩, ⟨0, 0, [⟨0, 0⟩]⟩, ⟨0, 0, [⟨0, 0⟩]⟩] : List Bin).get? 2
    ∧ (binSumsLoop false 1 1 [0] 1
        ⟨[⟨0, 0, [⟨0, 0⟩]⟩, ⟨0, 0, [⟨0, 0⟩]⟩, ⟨0, 0, [⟨0, 0⟩]⟩], [-3],
         [⟨3, [1]⟩], none⟩).gradsHess = [-3] :=
  ⟨⟨by decide, by decide⟩,
   (C8_binsums_frame false 1 1 [0] 1
     ⟨[⟨0, 0, [⟨0, 0⟩]⟩, ⟨0, 0, [⟨0, 0⟩]⟩, ⟨0, 0, [⟨0, 0⟩]⟩], [-3],
      [⟨3, [1]⟩], none⟩ 0 (by decide)).2.2.2,
   (C8_binsums_frame false 1 1 [0] 1
     ⟨[⟨0, 0, [⟨0, 0⟩]⟩, ⟨0, 0, [⟨0, 0⟩]⟩, ⟨0, 0, [⟨0, 0⟩]⟩], [-3],
      [⟨3, [1]⟩], none⟩ 2 (by decide)).2.2.2,
   (C8_binsums_frame false 1 1 [0] 1
     ⟨[⟨0, 0, [⟨0, 0⟩]⟩, ⟨0, 0, [⟨0, 0⟩]⟩, ⟨0, 0, [⟨0, 0⟩]⟩], [-3],
      [⟨3, [1]⟩], none⟩ 0 (by decide)).1⟩

/-! ## Specialization equivalence -/

/-- Claim C6: within the compile-time ladders, the fully specialized
kernel instantiation produces results identical to the generic dynamic
instantiation (`k_dynamicClassification` or `k_regression` with
`k_dynamicDimensions`) on the same input. -/
theorem C6_specialization_equivalence (K D kMax dMax : Nat)
    (term : List Nat) (cSamples : Nat) (mem : InteractionMemory)
    (hK2 : 2 ≤ K) (hKmax : K ≤ kMax) (hD2 : 2 ≤ D) (hDmax : D ≤ dMax)
    (hD : term.length = D) :
    BinSumsInteractionInternal (.specific K) (.specific D)
        (.classification K) term cSamples mem
      = BinSumsInteractionInternal .k_dynamicClassification
          .k_dynamicDimensions (.classification K) term cSamples mem
    ∧ BinSumsInteractionInternal .k_regression (.specific D)
        .regression term cSamples mem
      = BinSumsInteractionInternal .k_regression .k_dynamicDimensions
          .regression term cSamples mem := by
  unfold BinSumsInteractionInternal
  constructor
  · simp only [IsClassificationC, GET_COUNT_CLASSES, GET_DIMENSIONS, hD]
  · simp only [IsClassificationC, GET_COUNT_CLASSES, GET_DIMENSIONS, hD]

/-- Witness for C6 with `K = 3, D = 2` on a one-sample two-feature term. -/
theorem C6_specialization_equivalence_witness :
    (2 ≤ 3 ∧ 3 ≤ 4 ∧ 2 ≤ 2 ∧ 2 ≤ 4 ∧ ([0, 1] : List Nat).length = 2)
    ∧ BinSumsInteractionInternal (.specific 3) (.specific 2)
        (.classification 3) [0, 1] 1
        ⟨[⟨0, 0, [⟨0, 0⟩, ⟨0, 0⟩, ⟨0, 0⟩]⟩, ⟨0, 0, [⟨0, 0⟩, ⟨0, 0⟩, ⟨0, 0⟩]⟩,
          ⟨0, 0, [⟨0, 0⟩, ⟨0, 0⟩, ⟨0, 0⟩]⟩, ⟨0, 0, [⟨0, 0⟩, ⟨0, 0⟩, ⟨0, 0⟩]⟩],
         [1, 0, -1, 0, 0, 0], [⟨2, [1]⟩, ⟨2, [0]⟩], none⟩
      = BinSumsInteractionInternal .k_dynamicClassification
          .k_dynamicDimensions (.classification 3) [0, 1] 1
          ⟨[⟨0, 0, [⟨0, 0⟩, ⟨0, 0⟩, ⟨0, 0⟩]⟩, ⟨0, 0, [⟨0, 0⟩, ⟨0, 0⟩, ⟨0, 0⟩]⟩,
            ⟨0, 0, [⟨0, 0⟩, ⟨0, 0⟩, ⟨0, 0⟩]⟩, ⟨0, 0, [⟨0, 0⟩, ⟨0, 0⟩, ⟨0, 0⟩]⟩],
           [1, 0, -1, 0, 0, 0], [⟨2, [1]⟩, ⟨2, [0]⟩], none⟩ :=
  ⟨⟨by decide, by decide, by decide, by decide, by decide⟩,
   (C6_specialization_equivalence 3 2 4 4 [0, 1] 1
     ⟨[⟨0, 0, [⟨0, 0⟩, ⟨0, 0⟩, ⟨0, 0⟩]⟩, ⟨0, 0, [⟨0, 0⟩, ⟨0, 0⟩, ⟨0, 0⟩]⟩,
       ⟨0, 0, [⟨0, 0⟩, ⟨0, 0⟩, ⟨0, 0⟩]⟩, ⟨0, 0, [⟨0, 0⟩, ⟨0, 0⟩, ⟨0, 0⟩]⟩],
      [1, 0, -1, 0, 0, 0], [⟨2, [1]⟩, ⟨2, [0]⟩], none⟩
     (by decide) (by decide) (by decide) (by decide) (by decide)).1⟩

/-! ## The dispatcher ladders -/

/-- The dimension ladder keeps the class parameter and dispatches the
specialized dimension count exactly when the runtime count lies in
`[possible, dMax]`, else the dynamic variant. -/
theorem BinSumsInteractionDimensions_eq (dMax : Nat) (cc : CompilerClasses)
    (rtD : Nat) :
    ∀ fuel possible, dMax + 1 - possible = fuel →
    BinSumsInteractionDimensions dMax cc possible rtD
      = (cc, if possible ≤ rtD ∧ rtD ≤ dMax then .specific rtD
             else .k_dynamicDimensions) := by
  intro fuel
  induction fuel with
  | zero =>
    intro possible h
    unfold BinSumsInteractionDimensions
    rw [if_pos (by omega : dMax + 1 ≤ possible)]
    rw [if_neg (by omega : ¬(possible ≤ rtD ∧ rtD ≤ dMax))]
  | succ m ih =>
    intro possible h
    unfold BinSumsInteractionDimensions
    rw [if_neg (by omega : ¬(dMax + 1 ≤ possible))]
    by_cases he : possible = rtD
    · rw [if_pos he]
      subst he
      rw [if_pos ⟨le_refl possible, by omega⟩]
    · rw [if_neg he, ih (possible + 1) (by omega)]
      by_cases h1 : possible + 1 ≤ rtD ∧ rtD ≤ dMax
      · rw [if_pos h1, if_pos ⟨by omega, h1.2⟩]
      · rw [if_neg h1,
          if_neg (by rintro ⟨a, b⟩; exact h1 ⟨by omega, b⟩)]

/-- The target ladder dispatches `C = specific rtK` when
`rtK ≤ kMax` and `k_dynamicClassification` otherwise, then enters the
dimension ladder at 2. -/
theorem BinSumsInteractionTarget_eq (kMax dMax : Nat) (rtK rtD : Nat) :
    ∀ fuel possible, kMax + 1 - possible = fuel → possible ≤ rtK →
    BinSumsInteractionTarget kMax dMax possible rtK rtD
      = ((if rtK ≤ kMax then .specific rtK else .k_dynamicClassification),
         if 2 ≤ rtD ∧ rtD ≤ dMax then .specific rtD
         else .k_dynamicDimensions) := by
  intro fuel
  induction fuel with
  | zero =>
    intro possible h hle
    unfold BinSumsInteractionTarget
    rw [if_pos (by omega : kMax + 1 ≤ possible)]
    rw [BinSumsInteractionDimensions_eq dMax _ rtD (dMax + 1 - 2) 2 rfl]
    rw [if_neg (by omega : ¬rtK ≤ kMax)]
  | succ m ih =>
    intro possible h hle
    unfold BinSumsInteractionTarget
    rw [if_neg (by omega : ¬(kMax + 1 ≤ possible))]
    by_cases he : possible = rtK
    · rw [if_pos he]
      subst he
      rw [BinSumsInteractionDimensions_eq dMax _ rtD (dMax + 1 - 2) 2 rfl]
      rw [if_pos (by omega : possible ≤ kMax)]
    · rw [if_neg he, ih (possible + 1) (by omega) (by omega)]

/-- Claim C7: the dispatcher invokes exactly one kernel instantiation,
chosen as follows: for classification with runtime class count `K` it
walks the target ladder `C = 2, ..., K_MAX`, dispatching on the first
match and falling to `k_dynamicClassification` when `K` exceeds `K_MAX`;
for regression it enters the dimension ladder directly with
`C = k_regression`; within the chosen `C` it walks
`D = 2, ..., D_MAX`, dispatching the fully specialized kernel on a
match with the term's significant dimension count and otherwise the
dynamic-dimensions variant. -/
theorem C7_dispatcher (kMax dMax rtD : Nat) :
    (BinSumsInteraction kMax dMax .regression rtD
      = (.k_regression,
         if 2 ≤ rtD ∧ rtD ≤ dMax then .specific rtD
         else .k_dynamicDimensions))
    ∧ (∀ K, 2 ≤ K → K ≤ kMax →
        BinSumsInteraction kMax dMax (.classification K) rtD
          = (.specific K,
             if 2 ≤ rtD ∧ rtD ≤ dMax then .specific rtD
             else .k_dynamicDimensions))
    ∧ (∀ K, 2 ≤ K → kMax < K →
        BinSumsInteraction kMax dMax (.classification K) rtD
          = (.k_dynamicClassification,
             if 2 ≤ rtD ∧ rtD ≤ dMax then .specific rtD
             else .k_dynamicDimensions)) := by
  refine ⟨?_, ?_, ?_⟩
  · show BinSumsInteractionDimensions dMax .k_regression 2 rtD = _
    rw [BinSumsInteractionDimensions_eq dMax .k_regression rtD (dMax + 1 - 2) 2 rfl]
  · intro K h2 hK
    show BinSumsInteractionTarget kMax dMax 2 K rtD = _
    rw [BinSumsInteractionTarget_eq kMax dMax K rtD (kMax + 1 - 2) 2 rfl h2]
    rw [if_pos hK]
  · intro K h2 hK
    show BinSumsInteractionTarget kMax dMax 2 K rtD = _
    rw [BinSumsInteractionTarget_eq kMax dMax K rtD (kMax + 1 - 2) 2 rfl h2]
    rw [if_neg (by omega : ¬K ≤ kMax)]

/-- Witness for C7 with `K_MAX = D_MAX = 4`: regression, an in-ladder
class count 3 and an out-of-ladder class count 6, at runtime dimension
count 2. -/
theorem C7_dispatcher_witness :
    (2 ≤ 3 ∧ 3 ≤ 4 ∧ 2 ≤ 6 ∧ 4 < 6)
    ∧ BinSumsInteraction 4 4 .regression 2
        = (.k_regression,
           if 2 ≤ 2 ∧ 2 ≤ 4 then .specific 2 else .k_dynamicDimensions)
    ∧ BinSumsInteraction 4 4 (.classification 3) 2
        = (.specific 3,
           if 2 ≤ 2 ∧ 2 ≤ 4 then .specific 2 else .k_dynamicDimensions)
    ∧ BinSumsInteraction 4 4 (.classification 6) 2
        = (.k_dynamicClassification,
           if 2 ≤ 2 ∧ 2 ≤ 4 then .specific 2 else .k_dynamicDimensions) :=
  ⟨⟨by decide, by decide, by decide, by decide⟩,
   (C7_dispatcher 4 4 2).1,
   (C7_dispatcher 4 4 2).2.1 3 (by decide) (by decide),
   (C7_dispatcher 4 4 2).2.2 6 (by decide) (by decide)⟩

/-! ## The boosting initializer equals its spec description -/

theorem findNextB_bounds (isLoopValidation : Bool) :
    ∀ (bag : List Int) (r : Int) (cT cI : Nat) (rest : List Int),
    findNextB isLoopValidation bag = some (r, cT, cI, rest) →
    r ≠ 0 ∧ 1 ≤ cT ∧ 1 ≤ cI := by
  intro bag
  induction bag with
  | nil =>
    intro r cT cI rest h
    exact absurd h (by simp [findNextB])
  | cons x xs ih =>
    intro r cT cI rest h
    rw [findNextB] at h
    by_cases hx : x = 0
    · rw [if_pos hx] at h
      cases hfind : findNextB isLoopValidation xs with
      | none => rw [hfind] at h; exact absurd h (by simp)
      | some y =>
        obtain ⟨r2, cT2, cI2, rest2⟩ := y
        rw [hfind] at h
        simp only [Option.map_some', Option.some.injEq, Prod.mk.injEq] at h
        obtain ⟨hr, hcT, hcI, hrest⟩ := h
        obtain ⟨b1, b2, b3⟩ := ih r2 cT2 cI2 rest2 hfind
        subst hr
        exact ⟨b1, by omega, by omega⟩
    · rw [if_neg hx] at h
      by_cases hacc : decide (x < 0) = isLoopValidation
      · rw [if_pos hacc] at h
        simp only [Option.some.injEq, Prod.mk.injEq] at h
        obtain ⟨hr, hcT, hcI, hrest⟩ := h
        subst hr
        exact ⟨hx, by omega, by omega⟩
      · rw [if_neg hacc] at h
        cases hfind : findNextB isLoopValidation xs with
        | none => rw [hfind] at h; exact absurd h (by simp)
        | some y =>
          obtain ⟨r2, cT2, cI2, rest2⟩ := y
          rw [hfind] at h
          simp only [Option.map_some', Option.some.injEq, Prod.mk.injEq] at h
          obtain ⟨hr, hcT, hcI, hrest⟩ := h
          obtain ⟨b1, b2, b3⟩ := ih r2 cT2 cI2 rest2 hfind
          subst hr
          exact ⟨b1, by omega, by omega⟩

theorem cleanStream_of_findNextB_none (isLoopValidation : Bool) :
    ∀ (bag : List Int) (ts : List ℚ) (is_ : Option (List ℚ)),
    findNextB isLoopValidation bag = none →
    cleanStream isLoopValidation bag ts is_ = [] := by
  intro bag
  induction bag with
  | nil => intro ts is_ _; rfl
  | cons x xs ih =>
    intro ts is_ h
    rw [findNextB] at h
    rw [cleanStream]
    by_cases hx : x = 0
    · rw [if_pos hx] at h
      rw [if_pos hx]
      exact ih _ _ (Option.map_eq_none'.mp h)
    · rw [if_neg hx] at h
      by_cases hacc : decide (x < 0) = isLoopValidation
      · rw [if_pos hacc] at h
        exact absurd h (by simp)
      · rw [if_neg hacc] at h
        rw [if_neg hx, if_neg hacc]
        exact ih _ _ (Option.map_eq_none'.mp h)

theorem cleanStream_of_findNextB_some (isLoopValidation : Bool) :
    ∀ (bag : List Int) (ts : List ℚ) (is_ : Option (List ℚ))
      (r : Int) (cT cI : Nat) (rest : List Int),
    findNextB isLoopValidation bag = some (r, cT, cI, rest) →
    cleanStream isLoopValidation bag ts is_
      = List.replicate r.natAbs
          (ComputeGradientRegressionRmseInit (initScoreAt is_ (cI - 1))
            (ts.getD (cT - 1) 0))
        ++ cleanStream isLoopValidation rest (ts.drop cT)
            (is_.map (List.drop cI)) := by
  intro bag
  induction bag with
  | nil =>
    intro ts is_ r cT cI rest h
    exact absurd h (by simp [findNextB])
  | cons x xs ih =>
    intro ts is_ r cT cI rest h
    rw [findNextB] at h
    rw [cleanStream]
    by_cases hx : x = 0
    · rw [if_pos hx] at h
      rw [if_pos hx]
      cases hfind : findNextB isLoopValidation xs with
      | none => rw [hfind] at h; exact absurd h (by simp)
      | some y =>
        obtain ⟨r2, cT2, cI2, rest2⟩ := y
        rw [hfind] at h
        simp only [Option.map_some', Option.some.injEq, Prod.mk.injEq] at h
        obtain ⟨hr, hcT, hcI, hrest⟩ := h
        obtain ⟨b1, b2, b3⟩ := findNextB_bounds isLoopValidation xs r2 cT2 cI2
          rest2 hfind
        subst hr hcT hcI hrest
        rw [ih (ts.drop 1) is_ r2 cT2 cI2 rest2 hfind]
        have e1 : (ts.drop 1).getD (cT2 - 1) 0 = ts.getD (cT2 + 1 - 1) 0 := by
          rw [getD_drop_q]
          congr 1
          omega
        have e2 : (ts.drop 1).drop cT2 = ts.drop (cT2 + 1) := by
          rw [List.drop_drop]
          congr 1
          omega
        rw [e1, e2]
    · rw [if_neg hx] at h
      by_cases hacc : decide (x < 0) = isLoopValidation
      · rw [if_pos hacc] at h
        simp only [Option.some.injEq, Prod.mk.injEq] at h
        obtain ⟨hr, hcT, hcI, hrest⟩ := h
        subst hr hcT hcI hrest
        rw [if_neg hx, if_pos hacc]
      · rw [if_neg hacc] at h
        rw [if_neg hx, if_neg hacc]
        cases hfind : findNextB isLoopValidation xs with
        | none => rw [hfind] at h; exact absurd h (by simp)
        | some y =>
          obtain ⟨r2, cT2, cI2, rest2⟩ := y
          rw [hfind] at h
          simp only [Option.map_some', Option.some.injEq, Prod.mk.injEq] at h
          obtain ⟨hr, hcT, hcI, hrest⟩ := h
          obtain ⟨b1, b2, b3⟩ := findNextB_bounds isLoopValidation xs r2 cT2
            cI2 rest2 hfind
          subst hr hcT hcI hrest
          rw [ih (ts.drop 1) (is_.map (List.drop 1)) r2 cT2 cI2 rest2 hfind]
          have e1 : (ts.drop 1).getD (cT2 - 1) 0 = ts.getD (cT2 + 1 - 1) 0 := by
            rw [getD_drop_q]
            congr 1
            omega
          have e2 : (ts.drop 1).drop cT2 = ts.drop (cT2 + 1) := by
            rw [List.drop_drop]
            congr 1
            omega
          have e3 : initScoreAt (is_.map (List.drop 1)) (cI2 - 1)
              = initScoreAt is_ (cI2 + 1 - 1) := by
            cases is_ with
            | none => rfl
            | some l =>
              show (l.drop 1).getD (cI2 - 1) 0 = l.getD (cI2 + 1 - 1) 0
              rw [getD_drop_q]
              congr 1
              omega
          have e4 : (is_.map (List.drop 1)).map (List.drop cI2)
              = is_.map (List.drop (cI2 + 1)) := by
            cases is_ with
            | none => rfl
            | some l =>
              show some ((l.drop 1).drop cI2) = some (l.drop (cI2 + 1))
              rw [List.drop_drop, Nat.add_comm 1 cI2]
          rw [e1, e2, e3, e4]

/-- The write loop produces the pending copies followed by the spec
stream, truncated at the buffer capacity. -/
theorem initWriteB_eq_cleanStream (isLoopValidation : Bool) :
    ∀ (cap : Nat) (bag : List Int) (ts : List ℚ) (is_ : Option (List ℚ))
      (pending : Nat) (g : ℚ),
    initWriteB isLoopValidation cap (some bag) ts is_ pending g
      = (List.replicate pending g
          ++ cleanStream isLoopValidation bag ts is_).take cap := by
  intro cap
  induction cap with
  | zero => intro bag ts is_ pending g; rfl
  | succ c ih =>
    intro bag ts is_ pending g
    cases pending with
    | succ p =>
      show g :: initWriteB isLoopValidation c (some bag) ts is_ p g = _
      rw [ih]
      rw [List.replicate_succ, List.cons_append, List.take_succ_cons]
    | zero =>
      rw [List.replicate_zero, List.nil_append]
      cases hfind : findNextB isLoopValidation bag with
      | none =>
        rw [cleanStream_of_findNextB_none isLoopValidation bag ts is_ hfind]
        rw [initWriteB, hfind]
        rfl
      | some y =>
        obtain ⟨r, cT, cI, rest⟩ := y
        obtain ⟨b1, b2, b3⟩ := findNextB_bounds isLoopValidation bag r cT cI
          rest hfind
        rw [cleanStream_of_findNextB_some isLoopValidation bag ts is_ r cT cI
          rest hfind]
        rw [initWriteB, hfind]
        show (ComputeGradientRegressionRmseInit (initScoreAt is_ (cI - 1))
              (ts.getD (cT - 1) 0))
            :: initWriteB isLoopValidation c (some rest) (ts.drop cT)
                (is_.map (List.drop cI)) (r.natAbs - 1)
                (ComputeGradientRegressionRmseInit (initScoreAt is_ (cI - 1))
                  (ts.getD (cT - 1) 0))
          = _
        rw [ih]
        have hnat : r.natAbs = (r.natAbs - 1) + 1 := by
          have := Int.natAbs_pos.mpr b1
          omega
        conv_rhs => rw [hnat]
        rw [List.replicate_succ, List.cons_append, List.take_succ_cons]

/-- Writes cross subset boundaries: joining the filled subsets recovers
the emitted stream, truncated at the total capacity. -/
theorem fillSubsets_join (sizes : List Nat) :
    ∀ xs : List ℚ, (fillSubsets sizes xs).flatten = xs.take sizes.sum := by
  induction sizes with
  | nil => intro xs; rfl
  | cons n ns ih =>
    intro xs
    show (xs.take n :: fillSubsets ns (xs.drop n)).flatten = xs.take (n :: ns).sum
    rw [List.flatten_cons, ih, List.sum_cons, List.take_add]

/-- Claim C2: in RMSE boosting initialization each selected sample's
gradient is `initScore - target` (hence `-target` when init scores are
absent), written `|replication|` times into consecutive gradient-buffer
positions crossing subset boundaries as needed; the training pass
(direction +1) selects exactly the positive bag entries, the validation
pass (direction -1) exactly the negative ones, and zero entries are
skipped — so for bag `[+1, -2, 0, +3, -1]` training consumes target
indices 0 and 3 emitting 1 and 3 gradients, and validation consumes 1
and 4 emitting 2 and 1. -/
theorem C2_rmse_boosting_init :
    (∀ (bag : List Int) (ts : List ℚ) (is_ : Option (List ℚ))
      (sizes : List Nat),
      (InitializeRmseGradientsAndHessiansBoosting 1 (some bag) ts is_
        sizes).flatten
        = (cleanStream false bag ts is_).take sizes.sum)
    ∧ (∀ (bag : List Int) (ts : List ℚ) (is_ : Option (List ℚ))
      (sizes : List Nat),
      (InitializeRmseGradientsAndHessiansBoosting (-1) (some bag) ts is_
        sizes).flatten
        = (cleanStream true bag ts is_).take sizes.sum)
    ∧ (∀ t : ℚ, ComputeGradientRegressionRmseInit 0 t = -t)
    ∧ InitializeRmseGradientsAndHessiansBoosting 1 (some [1, -2, 0, 3, -1])
        [10, 20, 30, 40, 50] none [4] = [[-10, -40, -40, -40]]
    ∧ InitializeRmseGradientsAndHessiansBoosting (-1) (some [1, -2, 0, 3, -1])
        [10, 20, 30, 40, 50] none [3] = [[-20, -20, -50]]
    ∧ InitializeRmseGradientsAndHessiansBoosting 1 (some [1, -2, 0, 3, -1])
        [10, 20, 30, 40, 50] none [2, 2] = [[-10, -40], [-40, -40]] := by
  refine ⟨?_, ?_, ?_, ?_, ?_, ?_⟩
  · intro bag ts is_ sizes
    unfold InitializeRmseGradientsAndHessiansBoosting
    rw [fillSubsets_join]
    rw [show (decide ((1 : Int) < 0)) = false from rfl]
    rw [initWriteB_eq_cleanStream]
    rw [List.replicate_zero, List.nil_append, List.take_take]
    simp
  · intro bag ts is_ sizes
    unfold InitializeRmseGradientsAndHessiansBoosting
    rw [fillSubsets_join]
    rw [show (decide ((-1 : Int) < 0)) = true from rfl]
    rw [initWriteB_eq_cleanStream]
    rw [List.replicate_zero, List.nil_append, List.take_take]
    simp
  · intro t
    unfold ComputeGradientRegressionRmseInit
    ring
  · norm_num [InitializeRmseGradientsAndHessiansBoosting, fillSubsets,
      initWriteB, findNextB, ComputeGradientRegressionRmseInit,
      List.getD_cons_zero, List.getD_cons_succ]
  · norm_num [InitializeRmseGradientsAndHessiansBoosting, fillSubsets,
      initWriteB, findNextB, ComputeGradientRegressionRmseInit,
      List.getD_cons_zero, List.getD_cons_succ]
  · norm_num [InitializeRmseGradientsAndHessiansBoosting, fillSubsets,
      initWriteB, findNextB, ComputeGradientRegressionRmseInit,
      List.getD_cons_zero, List.getD_cons_succ]

/-! ## The interaction initializer: only positive bag entries in scope -/

/-- Claim C9: `GetTreeSweepSize` returns exactly the tree-sweep header
size (the record size minus its trailing inline bin) plus the per-bin
byte size computed from `(classification, cScores)`, and
`IsOverflowTreeSweepSize` returns true exactly when that addition
overflows `size_t`. -/
theorem C9_tree_sweep_size (bClassification : Bool) (cScores : Nat) :
    (IsOverflowTreeSweepSize bClassification cScores = true
      ↔ sizeModulus ≤ cBytesTreeSweepComponent bClassification
          + GetBinSize bClassification cScores)
    ∧ (IsOverflowTreeSweepSize bClassification cScores = false →
        GetTreeSweepSize bClassification cScores
          = cBytesTreeSweepComponent bClassification
            + GetBinSize bClassification cScores) := by
  constructor
  · unfold IsOverflowTreeSweepSize IsAddError
    simp
  · intro h
    unfold IsOverflowTreeSweepSize IsAddError at h
    simp only [decide_eq_false_iff_not, not_le] at h
    unfold GetTreeSweepSize
    exact Nat.mod_eq_of_lt h

/-- Witness for C9 at `(classification, cScores = 3)`: no overflow, and
the size is the 8-byte header plus the 64-byte bin. -/
theorem C9_tree_sweep_size_witness :
    IsOverflowTreeSweepSize true 3 = false
    ∧ GetTreeSweepSize true 3
      = cBytesTreeSweepComponent true + GetBinSize true 3 :=
  ⟨by decide, (C9_tree_sweep_size true 3).2 (by decide)⟩

/-! ## The test harness comparison -/

/-- Symmetry of `IsApproxEqual` on finite values: both orientations pick
the same pivot (the larger magnitude) and test the same products. -/
theorem IsApproxEqual_symm_val (v e p : ℚ) :
    IsApproxEqual (.val v) (.val e) p = IsApproxEqual (.val e) (.val v) p := by
  unfold IsApproxEqual
  dsimp only
  split_ifs <;>
    first
      | rfl
      | (exfalso; linarith)
      | (have heq : v = e := le_antisymm (by assumption) (by assumption)
         subst heq
         rfl)
      | (have hv0 : v = 0 := by linarith
         have he0 : e = 0 := by linarith
         subst hv0
         subst he0
         rfl)
      | (simp only [decide_eq_false_iff_not, decide_eq_true_eq]
         intro h0
         linarith)
      | (symm
         simp only [decide_eq_false_iff_not, decide_eq_true_eq]
         intro h0
         linarith)

/-- Claim C10: `IsApproxEqual` is symmetric in its first two arguments
for every percentage `0 ≤ p < 1`, and returns false whenever either
argument is NaN or infinite, so NaN is never approximately equal to
anything, including NaN. -/
theorem C10_is_approx_equal (val expected : EDouble) (percentage : ℚ)
    (h0 : 0 ≤ percentage) (h1 : percentage < 1) :
    IsApproxEqual val expected percentage
        = IsApproxEqual expected val percentage
    ∧ ((val = .nan ∨ expected = .nan
        ∨ (∃ b, val = .inf b) ∨ (∃ b, expected = .inf b)) →
       IsApproxEqual val expected percentage = false
       ∧ IsApproxEqual expected val percentage = false) := by
  constructor
  · cases val with
    | nan => cases expected <;> rfl
    | inf b => cases expected <;> rfl
    | val v =>
      cases expected with
      | nan => rfl
      | inf c => rfl
      | val e => exact IsApproxEqual_symm_val v e percentage
  · intro h
    rcases val with _ | b | v <;> rcases expected with _ | c | e <;>
      first
        | exact ⟨rfl, rfl⟩
        | (exfalso
           rcases h with h | h | ⟨b2, h⟩ | ⟨b2, h⟩ <;> simp at h)

/-- Witness for C10 at `p = 1/2`, on the finite pair `(1, 2)` and on a
NaN pair. -/
theorem C10_is_approx_equal_witness :
    (0 ≤ (1 : ℚ)/2 ∧ (1 : ℚ)/2 < 1)
    ∧ (IsApproxEqual (.val 1) (.val 2) (1/2)
        = IsApproxEqual (.val 2) (.val 1) (1/2))
    ∧ (IsApproxEqual .nan .nan (1/2) = false
       ∧ IsApproxEqual .nan .nan (1/2) = false) :=
  ⟨⟨by norm_num, by norm_num⟩,
   (C10_is_approx_equal (.val 1) (.val 2) (1/2)
     (by norm_num) (by norm_num)).1,
   (C10_is_approx_equal .nan .nan (1/2)
     (by norm_num) (by norm_num)).2
     (Or.inl rfl)⟩
